import Mathlib

/-!
Shallow embedding of `zoom-recording-downloader.py` (fork
`zoom-recording-downloader-2-google-drive`), covering the parts of the script
that carry the specification's invariants:

* `per_delta` — the windowed date-range enumerator (source lines 220-226),
  with Python `datetime` instants modelled as integers (datetime/timedelta
  arithmetic is exact, totally ordered, and closed under addition, so `Int`
  is a faithful carrier for the comparisons and additions the code performs);
* `download_recording` — the single-file downloader's size check and its
  exception handler (source lines 254-298); the handler's f-string mentions
  `recording_id`, a name bound only inside `main`'s loop and not in scope in
  `download_recording`, so evaluating it raises `NameError`, modelled by the
  `Except.error PyError.nameError` branch;
* the per-recording reconciliation loop of `main` (source lines 376-471),
  including the completed-ids skip check, `get_downloads`, the first
  download pass with its `all_files_downloaded` flag, the conditional
  `delete_recording` call, the completed-ids log append, and the retry block
  that lines 430-471 place inside the `else` branch (the block that folds
  per-file results with `success |= download_recording(...)` and appends to
  the log without any delete call);
* the auth / user-listing prefix of `main` (`load_access_token`,
  `load_completed_meeting_ids`, `get_users`, and the hardcoded e-mail filter
  of source lines 362-364);
* the durable completed-ids log: `markCompleteLog` models the append of
  `meeting_id + '\n'` (source lines 418-422), and `load_completed_meeting_ids`
  models the startup hydration that iterates the file's lines and adds
  `line.strip()` to the in-memory set (source lines 301-310), with file text
  as `List Char`, text-mode universal-newline translation as `univNl`,
  Python line iteration as `pyLines`, and `str.strip()` over Python's full
  `isspace` whitespace set as `pyStrip`.

Network and filesystem outcomes the script merely reacts to (per-file
download results, the HTTP status of the delete call, the recording lists
returned per user) are supplied by an oracle `Env`, so every branch of the
script's control flow is reached by choosing an oracle.
-/

namespace ZoomRec

/-- Ways the modelled Python process can terminate abnormally: an uncaught
`NameError` (an unbound name was evaluated), or an explicit `system.exit(1)`. -/
inductive PyError
  | nameError
  | sysExit
  deriving DecidableEq

/-- One entry of a recording's `recording_files` array, with the raw fields
the script reads: `file_type`, `file_extension`, `id`, `recording_type`,
`download_url`. -/
structure RecFile where
  file_type : String
  file_extension : String
  id : String
  recording_type : String
  download_url : String
  deriving DecidableEq

/-- One meeting record from the provider's listing: `uuid` (used as the
ledger key by `main`), `id`, `topic`, and the `recording_files` array. -/
structure Recording where
  uuid : String
  id : String
  topic : String
  recording_files : List RecFile
  deriving DecidableEq

/-- The tuple `get_downloads` appends per file:
`(file_type, file_extension, download_url, recording_type, recording_id)`,
where `recording_type` is the derived category and `download_url` already
carries the access token. -/
structure Download where
  file_type : String
  file_extension : String
  download_url : String
  recording_type : String
  recording_id : String
  deriving DecidableEq

/-- Category derivation of `get_downloads` (source lines 185-190): an empty
`file_type` maps to `"incomplete"`, a `file_type` other than `"TIMELINE"`
maps to the entry's provider-declared `recording_type`, and `"TIMELINE"`
maps to the `file_type` itself. -/
def derive_recording_type (f : RecFile) : String :=
  if f.file_type = "" then "incomplete"
  else if f.file_type ≠ "TIMELINE" then f.recording_type
  else f.file_type

/-- `get_downloads` (source lines 173-196): raises (modelled `Except.error`)
when the record has no `recording_files` entries, otherwise returns one
`Download` tuple per entry, appending `?access_token=` to each URL. -/
def get_downloads (r : Recording) (access_token : String) :
    Except Unit (List Download) :=
  if r.recording_files.isEmpty then Except.error ()
  else Except.ok (r.recording_files.map fun f =>
    { file_type := f.file_type
      file_extension := f.file_extension
      download_url := f.download_url ++ "?access_token=" ++ access_token
      recording_type := derive_recording_type f
      recording_id := f.id })

/-- Observable outcome of one `download_recording` call, as seen by `main`:
it returned `True`, it returned `False` (size mismatch), or it raised an
exception that propagates out of the call. -/
inductive DlResult
  | ok
  | sizeMismatch
  | raised
  deriving DecidableEq

/-- One user tuple produced by `get_users`:
`(email, id, first_name, last_name)`. -/
structure User where
  email : String
  id : String
  first_name : String
  last_name : String
  deriving DecidableEq

/-- Externally observable side effects of a run, in the order they happen. -/
inductive Action
  | hydrateLedger
  | userListRequest
  | listRecordings (userId : String)
  | download (recordingId : String)
  | deleteCall (meetingId : String)
  | ledgerAppend (meetingId : String)
  deriving DecidableEq

/-- Mutable state the script threads through a run: the in-memory
`COMPLETED_MEETING_IDS` set (as a list), the text of the completed-ids log
file, and the trace of externally observable actions so far. -/
structure StepState where
  ledger : List String
  log : String
  actions : List Action
  deriving DecidableEq

/-- Result of a (partial) run: it finished normally, or an uncaught
exception / explicit exit aborted it, with the state reached up to that
point. -/
inductive RunOutcome
  | finished (st : StepState)
  | aborted (err : PyError) (st : StepState)
  deriving DecidableEq

/-- Oracle for the effects the script reacts to. `dl1` and `dl2` give the
outcome of the `download_recording` call for a file id on the first pass
(source line 407) and on the retry pass (source line 457); `deleteOk` gives
whether `delete_recording` saw HTTP 204; `recordings` gives the list
`list_recordings(user_id)` accumulates for a user id. -/
structure Env where
  access_token : String
  dl1 : String → DlResult
  dl2 : String → DlResult
  deleteOk : String → Bool
  recordings : String → List Recording

/-- The ledger append of source lines 419-422 and 467-471: add the meeting
id to the in-memory set, write `meeting_id + '\n'` to the log, flush. -/
def markComplete (st : StepState) (meeting_id : String) : StepState :=
  { ledger := st.ledger ++ [meeting_id]
    log := st.log ++ meeting_id ++ "\n"
    actions := st.actions ++ [Action.ledgerAppend meeting_id] }

/-- Result of one pass over a recording's files: the loop ran to the end
carrying its flag, or a `download_recording` call raised and the exception
propagated; either way the download calls made so far are recorded. -/
inductive PassResult
  | done (flag : Bool) (acts : List Action)
  | raised (acts : List Action)
  deriving DecidableEq

/-- First download pass (source lines 392-414): for each non-`incomplete`
file call `download_recording`, clearing `all_files_downloaded` on a `False`
return; an `incomplete` file clears the flag without a download; a raised
exception propagates. `flag` is `all_files_downloaded`, initially `True`. -/
def firstPass (env : Env) : List Download → Bool → List Action → PassResult
  | [], flag, acts => PassResult.done flag acts
  | d :: rest, flag, acts =>
    if d.recording_type ≠ "incomplete" then
      match env.dl1 d.recording_id with
      | DlResult.raised => PassResult.raised (acts ++ [Action.download d.recording_id])
      | DlResult.ok => firstPass env rest flag (acts ++ [Action.download d.recording_id])
      | DlResult.sizeMismatch =>
          firstPass env rest false (acts ++ [Action.download d.recording_id])
    else
      firstPass env rest false acts

/-- Retry pass inside the `else` branch (source lines 439-463): for each
non-`incomplete` file, `success |= download_recording(...)`; an `incomplete`
file sets `success = False`. `flag` is `success`, reset to `False` at source
line 427 before the pass. -/
def secondPass (env : Env) : List Download → Bool → List Action → PassResult
  | [], flag, acts => PassResult.done flag acts
  | d :: rest, flag, acts =>
    if d.recording_type ≠ "incomplete" then
      match env.dl2 d.recording_id with
      | DlResult.raised => PassResult.raised (acts ++ [Action.download d.recording_id])
      | DlResult.ok => secondPass env rest true (acts ++ [Action.download d.recording_id])
      | DlResult.sizeMismatch =>
          secondPass env rest flag (acts ++ [Action.download d.recording_id])
    else
      secondPass env rest false acts

/-- The per-recording body of `main`'s loop (source lines 376-471):
skip when the uuid is already in the completed set; skip (after a printed
message) when `get_downloads` raises; otherwise run the first pass, and
either call `delete_recording` and, on success, append to the ledger
(lines 416-422), or — when a file failed or was `incomplete` — run the
retry block of lines 430-471, which re-invokes `get_downloads` on the same
record (same pure result, reused here) and appends to the ledger, without
any delete call, whenever its `success` flag ends up `True`. -/
def processRecording (env : Env) (st : StepState) (r : Recording) : RunOutcome :=
  if r.uuid ∈ st.ledger then RunOutcome.finished st
  else
    match get_downloads r env.access_token with
    | Except.error _ => RunOutcome.finished st
    | Except.ok downloads =>
      match firstPass env downloads true [] with
      | PassResult.raised acts =>
          RunOutcome.aborted PyError.nameError { st with actions := st.actions ++ acts }
      | PassResult.done all_files_downloaded acts1 =>
        let st1 := { st with actions := st.actions ++ acts1 }
        if all_files_downloaded then
          let st2 := { st1 with actions := st1.actions ++ [Action.deleteCall r.uuid] }
          if env.deleteOk r.uuid then RunOutcome.finished (markComplete st2 r.uuid)
          else RunOutcome.finished st2
        else
          match secondPass env downloads false [] with
          | PassResult.raised acts =>
              RunOutcome.aborted PyError.nameError { st1 with actions := st1.actions ++ acts }
          | PassResult.done success acts2 =>
            let st2 := { st1 with actions := st1.actions ++ acts2 }
            if success then RunOutcome.finished (markComplete st2 r.uuid)
            else RunOutcome.finished st2

/-- `main`'s loop over the recordings of one user, in order; an uncaught
exception aborts the whole loop. -/
def runRecordings (env : Env) (st : StepState) : List Recording → RunOutcome
  | [] => RunOutcome.finished st
  | r :: rest =>
    match processRecording env st r with
    | RunOutcome.finished st1 => runRecordings env st1 rest
    | RunOutcome.aborted err st1 => RunOutcome.aborted err st1

/-- The per-user body of `main`'s outer loop (source lines 362-372): a user
whose email differs from the literal `'val@bbooster.io'` is skipped with
`continue`; otherwise `list_recordings(user_id)` is called (one recorded
listing action; its windowed pagination is `per_delta`, modelled separately)
and each returned recording is reconciled. -/
def processUser (env : Env) (st : StepState) (u : User) : RunOutcome :=
  if u.email ≠ "val@bbooster.io" then RunOutcome.finished st
  else
    runRecordings env
      { st with actions := st.actions ++ [Action.listRecordings u.id] }
      (env.recordings u.id)

/-- `main`'s loop over all users returned by `get_users`. -/
def runUsers (env : Env) (st : StepState) : List User → RunOutcome
  | [] => RunOutcome.finished st
  | u :: rest =>
    match processUser env st u with
    | RunOutcome.finished st1 => runUsers env st1 rest
    | RunOutcome.aborted err st1 => RunOutcome.aborted err st1

/-- Inputs of one whole run: the `access_token` field of the OAuth token
response if present (`load_access_token` stores it in the globals; on a
missing key it prints an error and returns with the globals unassigned,
modelled `none`), whether the user-list request succeeds, the user list,
the oracle for downloads/deletes/listings, and the hydrated ledger state. -/
structure RunEnv where
  auth_response_token : Option String
  userListOk : Bool
  users : List User
  dl1 : String → DlResult
  dl2 : String → DlResult
  deleteOk : String → Bool
  recordings : String → List Recording
  initialLedger : List String
  initialLog : String

/-- `load_access_token` (source lines 85-111): the globals `ACCESS_TOKEN` /
`AUTHORIZATION_HEADER` after the call — assigned when the token response has
an `access_token` key, left unassigned (with only a printed message) when
the `KeyError` handler runs. -/
def load_access_token (renv : RunEnv) : Option String :=
  renv.auth_response_token

/-- `main` (source lines 322-478): `load_access_token`, then
`load_completed_meeting_ids` (ledger hydration), then `get_users`, then the
user loop. Evaluating `AUTHORIZATION_HEADER` inside `get_users` (source
line 117) raises `NameError` when the global was never assigned, before any
user-list request is issued; when it was assigned, the request is issued and
a non-ok response leads to `system.exit(1)` (source line 126). -/
def mainRun (renv : RunEnv) : RunOutcome :=
  let st1 : StepState :=
    { ledger := renv.initialLedger
      log := renv.initialLog
      actions := [Action.hydrateLedger] }
  match load_access_token renv with
  | none => RunOutcome.aborted PyError.nameError st1
  | some token =>
    let st2 := { st1 with actions := st1.actions ++ [Action.userListRequest] }
    if renv.userListOk then
      runUsers
        { access_token := token
          dl1 := renv.dl1
          dl2 := renv.dl2
          deleteOk := renv.deleteOk
          recordings := renv.recordings }
        st2 renv.users
    else RunOutcome.aborted PyError.sysExit st2

/-- The streamed HTTP response one `download_recording` call consumes: the
`content-length` header if present, the body chunks that `iter_content`
yields (each a list of bytes), and whether an exception is raised during the
streaming/write loop (transport error mid-stream or disk-write error). -/
structure StreamedResponse where
  contentLength : Option Nat
  chunks : List (List Nat)
  streamError : Bool
  deriving DecidableEq

/-- Size of the file on disk after the write loop: every chunk is written in
order to a freshly opened file, so `os.path.getsize` is the total chunk
length. -/
def bytesOnDisk (r : StreamedResponse) : Nat :=
  (r.chunks.map List.length).sum

/-- `download_recording` (source lines 254-298): `total_size` is the
`content-length` header with default `0`; on a clean stream the call returns
the result of `disk_size == total_size`; when the streaming/write loop
raises, the `except` handler evaluates an f-string naming `recording_id`,
which is not bound in this function's scope, so the handler itself raises
`NameError`, which propagates to the caller. -/
def download_recording (r : StreamedResponse) : Except PyError Bool :=
  let total_size := r.contentLength.getD 0
  if r.streamError then Except.error PyError.nameError
  else Except.ok (bytesOnDisk r == total_size)

/-- `per_delta` (source lines 220-226): starting at `start`, repeatedly
yield the window `(curr, min (curr + delta) e)` and advance `curr` by
`delta` while `curr < e`. Instants are integers; the positivity of `delta`
under which the Python loop terminates is carried as an argument. -/
def per_delta (start e delta : Int) (hd : 0 < delta) : List (Int × Int) :=
  if _h : start < e then
    (start, min (start + delta) e) :: per_delta (start + delta) e delta hd
  else []
termination_by (e - start).toNat
decreasing_by omega

/-- Python whitespace for `str.strip()` with no argument: the characters
`str.isspace()` accepts — tab through carriage return (U+0009..U+000D), the
file/group/record/unit separators (U+001C..U+001F), space, next line
(U+0085), no-break space (U+00A0), ogham space mark (U+1680), the en-quad
through hair-space block (U+2000..U+200A), line and paragraph separators
(U+2028, U+2029), narrow no-break space (U+202F), medium mathematical space
(U+205F), and ideographic space (U+3000). -/
def isPySpace (c : Char) : Bool :=
  decide ((9 ≤ c.toNat ∧ c.toNat ≤ 13) ∨ (28 ≤ c.toNat ∧ c.toNat ≤ 31)
    ∨ c.toNat = 32 ∨ c.toNat = 133 ∨ c.toNat = 160 ∨ c.toNat = 5760
    ∨ (8192 ≤ c.toNat ∧ c.toNat ≤ 8202) ∨ c.toNat = 8232 ∨ c.toNat = 8233
    ∨ c.toNat = 8239 ∨ c.toNat = 8287 ∨ c.toNat = 12288)

/-- `str.strip()` on file text modelled as a character list: drop leading
and trailing whitespace. -/
def pyStrip (s : List Char) : List Char :=
  ((s.dropWhile isPySpace).reverse.dropWhile isPySpace).reverse

/-- Split a character list at every newline; like Python's
`text.split('\n')`, always at least one (possibly empty) part. -/
def splitNl : List Char → List (List Char)
  | [] => [[]]
  | c :: rest =>
    if c = '\n' then [] :: splitNl rest
    else
      match splitNl rest with
      | [] => [[c]]
      | p :: ps => (c :: p) :: ps

/-- Reassemble split parts into the lines Python file iteration yields:
every part but the last keeps its terminating newline, and a final empty
part (text ended in a newline) yields no extra line. -/
def pyFileLines : List (List Char) → List (List Char)
  | [] => []
  | [p] => if p.isEmpty then [] else [p]
  | p :: q :: rest => (p ++ ['\n']) :: pyFileLines (q :: rest)

/-- Universal-newline translation applied by Python text-mode reading
before the stream is seen: `'\r\n'` becomes `'\n'`, and so does a lone
`'\r'` (including at end of text). -/
def univNl : List Char → List Char
  | [] => []
  | [c] => if c = '\r' then ['\n'] else [c]
  | c :: c2 :: rest =>
    if c = '\r' then
      if c2 = '\n' then '\n' :: univNl rest
      else '\n' :: univNl (c2 :: rest)
    else c :: univNl (c2 :: rest)

/-- The lines Python's `for line in fd` yields for a text-mode file with
the given raw text: universal-newline translation, then a break at every
`'\n'`. -/
def pyLines (s : List Char) : List (List Char) :=
  pyFileLines (splitNl (univNl s))

/-- `load_completed_meeting_ids` (source lines 301-310): the in-memory set
hydrated from the log file — `line.strip()` for every line of the file.
Membership in the resulting list is the set-membership the script tests. -/
def load_completed_meeting_ids (content : List Char) : List (List Char) :=
  (pyLines content).map pyStrip

/-- The durable effect of the ledger append (source lines 419-422): the log
file's text grows by the meeting id followed by a newline. -/
def markCompleteLog (content meeting_id : List Char) : List Char :=
  content ++ meeting_id ++ ['\n']

/-- An `incomplete` file entry: empty `file_type` (source line 185). -/
def fIncomplete : RecFile :=
  { file_type := ""
    file_extension := ""
    id := "f1"
    recording_type := ""
    download_url := "u1" }

/-- An ordinary video file entry. -/
def fVideo : RecFile :=
  { file_type := "MP4"
    file_extension := "mp4"
    id := "f2"
    recording_type := "shared_screen_with_speaker_view"
    download_url := "u2" }

/-- A recording whose file set contains an `incomplete` entry followed by an
ordinary entry. -/
def recMixed : Recording :=
  { uuid := "R"
    id := "123"
    topic := "standup"
    recording_files := [fIncomplete, fVideo] }

/-- A recording with a single ordinary file. -/
def recPlain : Recording :=
  { uuid := "A"
    id := "124"
    topic := "retro"
    recording_files := [fVideo] }

/-- A second recording with a single ordinary file. -/
def recLater : Recording :=
  { uuid := "B"
    id := "125"
    topic := "planning"
    recording_files := [fVideo] }

/-- The empty starting state. -/
def st0 : StepState :=
  { ledger := [], log := "", actions := [] }

/-- A state whose ledger already contains `"R"`. -/
def stLedgered : StepState :=
  { ledger := ["R"], log := "R\n", actions := [] }

/-- Oracle where every download and every delete succeeds. -/
def envAllOk : Env :=
  { access_token := "tok"
    dl1 := fun _ => DlResult.ok
    dl2 := fun _ => DlResult.ok
    deleteOk := fun _ => true
    recordings := fun _ => [] }

/-- Oracle where every `download_recording` call raises. -/
def envRaising : Env :=
  { access_token := "tok"
    dl1 := fun _ => DlResult.raised
    dl2 := fun _ => DlResult.raised
    deleteOk := fun _ => true
    recordings := fun _ => [] }

/-- A response declaring 3 bytes whose stream carries 3 bytes cleanly. -/
def resp3 : StreamedResponse :=
  { contentLength := some 3, chunks := [[1, 2], [3]], streamError := false }

/-- A response with no `content-length` header and a non-empty clean body. -/
def respNoLen : StreamedResponse :=
  { contentLength := none, chunks := [[5]], streamError := false }

/-- A user whose email is not the hardcoded one. -/
def uOther : User :=
  { email := "a@b.example"
    id := "u1"
    first_name := "A"
    last_name := "B" }

/-- A run whose OAuth token response lacks the `access_token` key, with a
non-trivial pre-existing ledger. -/
def renvAuthFail : RunEnv :=
  { auth_response_token := none
    userListOk := true
    users := [uOther]
    dl1 := fun _ => DlResult.ok
    dl2 := fun _ => DlResult.ok
    deleteOk := fun _ => true
    recordings := fun _ => []
    initialLedger := ["old"]
    initialLog := "old\n" }

/-- C1: evaluation at the failing input. The recording `recMixed` has an
`incomplete` file (`fIncomplete` derives category `"incomplete"`), yet a run
over it with every download succeeding ends with its uuid `"R"` appended to
the completion ledger — by the retry block of source lines 430-471, whose
`success |= download_recording(...)` fold ends `True` — while the remote
delete endpoint is never invoked (no `deleteCall` action in the trace).
This contradicts the claim that such a recording is never ledgered. -/
theorem incomplete_recording_reaches_ledger :
    runRecordings envAllOk st0 [recMixed] =
      RunOutcome.finished
        { ledger := ["R"], log := "R\n"
          actions := [Action.download "f2", Action.download "f2", Action.ledgerAppend "R"] }
    ∧ derive_recording_type fIncomplete = "incomplete"
    ∧ recMixed.uuid = "R"
    ∧ Action.deleteCall "R" ∉
        [Action.download "f2", Action.download "f2", Action.ledgerAppend "R"] := by
  decide

/-- C3: evaluation at the failing input. A response whose streaming raises
makes `download_recording` itself raise `NameError` (its `except` handler
evaluates the unbound name `recording_id`) instead of returning a failure
result, and a run over two recordings whose first download raises aborts at
that point — the second recording is never processed and no summary is
reached. -/
theorem streaming_error_aborts_run :
    download_recording
        { contentLength := some 1000, chunks := [[7, 7]], streamError := true } =
      Except.error PyError.nameError
    ∧ runRecordings envRaising st0 [recPlain, recLater] =
        RunOutcome.aborted PyError.nameError
          { ledger := [], log := "", actions := [Action.download "f2"] } :=
  ⟨rfl, by decide⟩

/-- C8: evaluation at the failing input. With an OAuth token response that
lacks the `access_token` key, the run is not aborted at the auth step: it
proceeds to hydrate the completion ledger, and only then crashes with
`NameError` when `get_users` evaluates the never-assigned
`AUTHORIZATION_HEADER`; no user-list request, recording listing, download,
delete, or ledger write happens after the auth failure. -/
theorem auth_failure_continues_then_crashes :
    mainRun renvAuthFail =
      RunOutcome.aborted PyError.nameError
        { ledger := ["old"], log := "old\n", actions := [Action.hydrateLedger] } := by
  decide

/-- C5: on a cleanly consumed stream with a declared `content-length`, the
downloader returns success exactly when the bytes written to disk equal the
declared value, and returns failure on every stream shorter than the
declared length. -/
theorem download_success_iff_size_matches (r : StreamedResponse) (n : Nat)
    (hcl : r.contentLength = some n) (hs : r.streamError = false) :
    (download_recording r = Except.ok true ↔ bytesOnDisk r = n)
    ∧ (bytesOnDisk r < n → download_recording r = Except.ok false) := by
  constructor
  · simp [download_recording, hs, hcl]
  · intro hlt
    simp only [download_recording, hs, hcl, Option.getD_some, if_false, Bool.false_eq_true]
    simp only [Except.ok.injEq]
    have hne : bytesOnDisk r ≠ n := by omega
    simp [hne]

/-- Witness for C5 at a concrete response with matching sizes. -/
theorem download_success_iff_size_matches_witness :
    resp3.contentLength = some 3 ∧ resp3.streamError = false
    ∧ ((download_recording resp3 = Except.ok true ↔ bytesOnDisk resp3 = 3)
       ∧ (bytesOnDisk resp3 < 3 → download_recording resp3 = Except.ok false)) :=
  ⟨rfl, rfl, download_success_iff_size_matches resp3 3 rfl rfl⟩

/-- C10: with no `content-length` header, `total_size` defaults to `0`, so a
cleanly consumed stream yields success exactly when the file on disk is
empty, and every non-empty body is reported as a size-mismatch failure. -/
theorem no_content_length_success_iff_empty (r : StreamedResponse)
    (hcl : r.contentLength = none) (hs : r.streamError = false) :
    (download_recording r = Except.ok true ↔ bytesOnDisk r = 0)
    ∧ (0 < bytesOnDisk r → download_recording r = Except.ok false) := by
  constructor
  · simp [download_recording, hs, hcl]
  · intro hlt
    simp only [download_recording, hs, hcl, Option.getD_none, if_false, Bool.false_eq_true]
    simp only [Except.ok.injEq]
    have hne : bytesOnDisk r ≠ 0 := by omega
    simp [hne]

/-- Witness for C10 at a concrete headerless non-empty response. -/
theorem no_content_length_success_iff_empty_witness :
    respNoLen.contentLength = none ∧ respNoLen.streamError = false
    ∧ ((download_recording respNoLen = Except.ok true ↔ bytesOnDisk respNoLen = 0)
       ∧ (0 < bytesOnDisk respNoLen → download_recording respNoLen = Except.ok false)) :=
  ⟨rfl, rfl, no_content_length_success_iff_empty respNoLen rfl rfl⟩

/-- C6: a recording whose uuid is already in the completion ledger is
skipped entirely — the per-recording step returns the state unchanged (no
extraction, no download, no delete call, no ledger append in the trace),
and a run over a list starting with such a recording equals the run over
the rest, which is what makes re-running with an unmodified ledger
idempotent for ledgered recordings. -/
theorem ledgered_recording_skipped (env : Env) (st : StepState) (r : Recording)
    (rest : List Recording) (h : r.uuid ∈ st.ledger) :
    processRecording env st r = RunOutcome.finished st
    ∧ runRecordings env st (r :: rest) = runRecordings env st rest := by
  have h1 : processRecording env st r = RunOutcome.finished st := by
    simp [processRecording, h]
  refine ⟨h1, ?_⟩
  rw [runRecordings, h1]

/-- Witness for C6 at a concrete ledgered recording. -/
theorem ledgered_recording_skipped_witness :
    recMixed.uuid ∈ stLedgered.ledger
    ∧ (processRecording envAllOk stLedgered recMixed = RunOutcome.finished stLedgered
       ∧ runRecordings envAllOk stLedgered [recMixed] = runRecordings envAllOk stLedgered []) :=
  ⟨by decide, ledgered_recording_skipped envAllOk stLedgered recMixed [] (by decide)⟩

/-- C9: a user whose email is not the literal `'val@bbooster.io'` is skipped
by the hardcoded filter — the per-user step returns the state unchanged (no
listing, download, delete, or ledger action), and a run over any user list
equals the run with that user removed. -/
theorem nonmatching_user_not_processed (env : Env) (st : StepState) (u : User)
    (l1 l2 : List User) (h : u.email ≠ "val@bbooster.io") :
    processUser env st u = RunOutcome.finished st
    ∧ runUsers env st (l1 ++ u :: l2) = runUsers env st (l1 ++ l2) := by
  have h1 : ∀ s : StepState, processUser env s u = RunOutcome.finished s := by
    intro s
    simp [processUser, h]
  refine ⟨h1 st, ?_⟩
  induction l1 generalizing st with
  | nil =>
    simp only [List.nil_append]
    rw [runUsers, h1 st]
  | cons v l1 ih =>
    simp only [List.cons_append, runUsers]
    cases processUser env st v with
    | finished st1 => exact ih st1
    | aborted err st1 => rfl

/-- Witness for C9 at a concrete non-matching user. -/
theorem nonmatching_user_not_processed_witness :
    uOther.email ≠ "val@bbooster.io"
    ∧ (processUser envAllOk st0 uOther = RunOutcome.finished st0
       ∧ runUsers envAllOk st0 ([] ++ uOther :: []) = runUsers envAllOk st0 ([] ++ [])) :=
  ⟨by decide, nonmatching_user_not_processed envAllOk st0 uOther [] [] (by decide)⟩

/-- Unfolding: one loop iteration when the cursor is before the end. -/
theorem per_delta_pos (start e delta : Int) (hd : 0 < delta) (h : start < e) :
    per_delta start e delta hd =
      (start, min (start + delta) e) :: per_delta (start + delta) e delta hd := by
  rw [per_delta]
  simp [h]

/-- Unfolding: the loop yields nothing when the cursor is at or past the end. -/
theorem per_delta_neg (start e delta : Int) (hd : 0 < delta) (h : ¬ start < e) :
    per_delta start e delta hd = [] := by
  rw [per_delta]
  simp [h]

/-- Every emitted window starts at or after the cursor, is non-empty, ends
at or before `e`, and spans at most `delta`. -/
theorem per_delta_mem_bound (e delta : Int) (hd : 0 < delta) :
    ∀ (n : Nat) (start : Int), (e - start).toNat ≤ n →
      ∀ p ∈ per_delta start e delta hd,
        start ≤ p.1 ∧ p.1 < p.2 ∧ p.2 ≤ e ∧ p.2 - p.1 ≤ delta := by
  intro n
  induction n with
  | zero =>
    intro start hle p hp
    rw [per_delta_neg start e delta hd (by omega)] at hp
    simp at hp
  | succ n ih =>
    intro start hle p hp
    by_cases h : start < e
    · rw [per_delta_pos start e delta hd h] at hp
      rcases List.mem_cons.mp hp with rfl | hp2
      · refine ⟨le_refl start, ?_, ?_, ?_⟩
        · show start < min (start + delta) e
          omega
        · show min (start + delta) e ≤ e
          omega
        · show min (start + delta) e - start ≤ delta
          omega
      · have h3 := ih (start + delta) (by omega) p hp2
        exact ⟨by omega, h3.2.1, h3.2.2.1, h3.2.2.2⟩
    · rw [per_delta_neg start e delta hd h] at hp
      simp at hp

/-- Window bounds, stated from the loop's first cursor value. -/
theorem per_delta_mem (start e delta : Int) (hd : 0 < delta) (p : Int × Int)
    (hp : p ∈ per_delta start e delta hd) :
    start ≤ p.1 ∧ p.1 < p.2 ∧ p.2 ≤ e ∧ p.2 - p.1 ≤ delta :=
  per_delta_mem_bound e delta hd (e - start).toNat start (le_refl _) p hp

/-- Consecutive windows are contiguous: each window's end is the next
window's start. -/
theorem per_delta_chain_bound (e delta : Int) (hd : 0 < delta) :
    ∀ (n : Nat) (start : Int), (e - start).toNat ≤ n →
      List.Chain' (fun p q : Int × Int => p.2 = q.1) (per_delta start e delta hd) := by
  intro n
  induction n with
  | zero =>
    intro start hle
    rw [per_delta_neg start e delta hd (by omega)]
    exact List.chain'_nil
  | succ n ih =>
    intro start hle
    by_cases h : start < e
    · rw [per_delta_pos start e delta hd h]
      refine List.chain'_cons'.mpr ⟨?_, ih (start + delta) (by omega)⟩
      intro q hq
      by_cases h2 : start + delta < e
      · rw [per_delta_pos (start + delta) e delta hd h2] at hq
        simp only [List.head?_cons, Option.mem_def, Option.some.injEq] at hq
        rw [← hq]
        show min (start + delta) e = (start + delta, min (start + delta + delta) e).1
        omega
      · rw [per_delta_neg (start + delta) e delta hd h2] at hq
        simp at hq
    · rw [per_delta_neg start e delta hd h]
      exact List.chain'_nil

/-- Windows are pairwise ordered: every earlier window ends at or before a
later window starts (so they never overlap). -/
theorem per_delta_pairwise_bound (e delta : Int) (hd : 0 < delta) :
    ∀ (n : Nat) (start : Int), (e - start).toNat ≤ n →
      List.Pairwise (fun p q : Int × Int => p.2 ≤ q.1) (per_delta start e delta hd) := by
  intro n
  induction n with
  | zero =>
    intro start hle
    rw [per_delta_neg start e delta hd (by omega)]
    exact List.Pairwise.nil
  | succ n ih =>
    intro start hle
    by_cases h : start < e
    · rw [per_delta_pos start e delta hd h]
      refine List.Pairwise.cons ?_ (ih (start + delta) (by omega))
      intro q hq
      have h3 := per_delta_mem (start + delta) e delta hd q hq
      show min (start + delta) e ≤ q.1
      omega
    · rw [per_delta_neg start e delta hd h]
      exact List.Pairwise.nil

/-- Every instant in the half-open range is covered by some window. -/
theorem per_delta_cover_bound (e delta : Int) (hd : 0 < delta) :
    ∀ (n : Nat) (start x : Int), (e - start).toNat ≤ n → start ≤ x → x < e →
      ∃ p ∈ per_delta start e delta hd, p.1 ≤ x ∧ x < p.2 := by
  intro n
  induction n with
  | zero =>
    intro start x hle hsx hxe
    exfalso
    omega
  | succ n ih =>
    intro start x hle hsx hxe
    have h : start < e := by omega
    rw [per_delta_pos start e delta hd h]
    by_cases h2 : x < min (start + delta) e
    · exact ⟨(start, min (start + delta) e), List.mem_cons_self _ _, hsx, h2⟩
    · have h3 : start + delta ≤ x := by omega
      obtain ⟨p, hp, hpx⟩ := ih (start + delta) x (by omega) h3 hxe
      exact ⟨p, List.mem_cons_of_mem _ hp, hpx⟩

/-- C2: for every start `s`, end `e` with `s ≤ e` and window size `w > 0`,
the windows produced by `per_delta` form a finite sequence that is
contiguous (each window's end equals the next window's start), pairwise
non-overlapping, covers exactly the half-open range from `s` to `e`, with
each window non-empty, no longer than `w`, and ending at or before `e`;
when `s = e` the sequence is empty. -/
theorem per_delta_window_spec (s e w : Int) (hw : 0 < w) (_hse : s ≤ e) :
    List.Chain' (fun p q : Int × Int => p.2 = q.1) (per_delta s e w hw)
    ∧ List.Pairwise (fun p q : Int × Int => p.2 ≤ q.1) (per_delta s e w hw)
    ∧ (∀ x : Int, (s ≤ x ∧ x < e) ↔ ∃ p ∈ per_delta s e w hw, p.1 ≤ x ∧ x < p.2)
    ∧ (∀ p ∈ per_delta s e w hw, p.1 < p.2 ∧ p.2 - p.1 ≤ w ∧ p.2 ≤ e)
    ∧ (s = e → per_delta s e w hw = []) := by
  refine ⟨per_delta_chain_bound e w hw (e - s).toNat s (le_refl _),
          per_delta_pairwise_bound e w hw (e - s).toNat s (le_refl _), ?_, ?_, ?_⟩
  · intro x
    constructor
    · intro hx
      exact per_delta_cover_bound e w hw (e - s).toNat s x (le_refl _) hx.1 hx.2
    · rintro ⟨p, hp, h1, h2⟩
      have h3 := per_delta_mem s e w hw p hp
      omega
  · intro p hp
    have h3 := per_delta_mem s e w hw p hp
    omega
  · intro heq
    exact per_delta_neg s e w hw (by omega)

/-- Witness for C2 on the concrete range 0..5 with window size 2. -/
theorem per_delta_window_spec_witness :
    (0 : Int) < 2 ∧ (0 : Int) ≤ 5
    ∧ (List.Chain' (fun p q : Int × Int => p.2 = q.1) (per_delta 0 5 2 (by decide))
       ∧ List.Pairwise (fun p q : Int × Int => p.2 ≤ q.1) (per_delta 0 5 2 (by decide))
       ∧ (∀ x : Int, ((0 : Int) ≤ x ∧ x < 5) ↔
            ∃ p ∈ per_delta 0 5 2 (by decide), p.1 ≤ x ∧ x < p.2)
       ∧ (∀ p ∈ per_delta 0 5 2 (by decide), p.1 < p.2 ∧ p.2 - p.1 ≤ 2 ∧ p.2 ≤ 5)
       ∧ ((0 : Int) = 5 → per_delta 0 5 2 (by decide) = [])) :=
  ⟨by decide, by decide, per_delta_window_spec 0 5 2 (by decide) (by decide)⟩

/-- C7 counterexample: called with start 5 greater than end 3, `per_delta`
returns normally with the empty window sequence — there is no error path in
the generator at all, contradicting the claim that it fails with an
InvalidRange condition. -/
theorem per_delta_start_after_end_cex :
    per_delta 5 3 1 (by decide) = [] :=
  per_delta_neg 5 3 1 (by decide) (by decide)

/-- C7 (amended): when called with start strictly greater than end, the
window enumerator silently yields the empty sequence of windows; no error
condition is raised. -/
theorem per_delta_start_after_end_empty (start e delta : Int) (hd : 0 < delta)
    (h : e < start) :
    per_delta start e delta hd = [] :=
  per_delta_neg start e delta hd (by omega)

/-- Witness for the amended C7 at start 5, end 3, window 1. -/
theorem per_delta_start_after_end_empty_witness :
    (0 : Int) < 1 ∧ (3 : Int) < 5 ∧ per_delta 5 3 1 (by decide) = [] :=
  ⟨by decide, by decide, per_delta_start_after_end_empty 5 3 1 (by decide) (by decide)⟩

/-- `dropWhile` on a cons whose head satisfies the predicate drops it. -/
theorem dropWhile_cons_of_pos (p : Char → Bool) (c : Char) (l : List Char)
    (h : p c = true) : (c :: l).dropWhile p = l.dropWhile p := by
  simp [List.dropWhile, h]

/-- `dropWhile` on a cons whose head fails the predicate keeps the list. -/
theorem dropWhile_cons_of_neg (p : Char → Bool) (c : Char) (l : List Char)
    (h : p c = false) : (c :: l).dropWhile p = c :: l := by
  simp [List.dropWhile, h]

/-- `dropWhile` yields a suffix: some prefix was dropped. -/
theorem dropWhile_suffix_self (p : Char → Bool) :
    ∀ l : List Char, ∃ t : List Char, t ++ l.dropWhile p = l := by
  intro l
  induction l with
  | nil => exact ⟨[], rfl⟩
  | cons c rest ih =>
    cases hc : p c with
    | true =>
      obtain ⟨t, ht⟩ := ih
      refine ⟨c :: t, ?_⟩
      rw [dropWhile_cons_of_pos p c rest hc, List.cons_append, ht]
    | false =>
      exact ⟨[], by rw [dropWhile_cons_of_neg p c rest hc, List.nil_append]⟩

/-- `dropWhile` never lengthens a list. -/
theorem length_dropWhile_le' (p : Char → Bool) (l : List Char) :
    (l.dropWhile p).length ≤ l.length := by
  obtain ⟨t, ht⟩ := dropWhile_suffix_self p l
  have h2 := congrArg List.length ht
  simp only [List.length_append] at h2
  omega

/-- A `dropWhile` result of full length dropped nothing. -/
theorem dropWhile_eq_self_of_len (p : Char → Bool) (l : List Char)
    (h : (l.dropWhile p).length = l.length) : l.dropWhile p = l := by
  obtain ⟨t, ht⟩ := dropWhile_suffix_self p l
  have h2 := congrArg List.length ht
  simp only [List.length_append] at h2
  have h3 : t = [] := List.length_eq_zero.mp (by omega)
  rw [h3] at ht
  simpa using ht

/-- A list fixed by `pyStrip` is fixed by both directed whitespace drops. -/
theorem pyStrip_eq_self_facts (s : List Char) (h : pyStrip s = s) :
    s.dropWhile isPySpace = s ∧ s.reverse.dropWhile isPySpace = s.reverse := by
  have hlen1 := length_dropWhile_le' isPySpace s
  have hlen2 := length_dropWhile_le' isPySpace (s.dropWhile isPySpace).reverse
  have hlen3 : (pyStrip s).length =
      ((s.dropWhile isPySpace).reverse.dropWhile isPySpace).length := by
    simp [pyStrip]
  have hlen4 : (pyStrip s).length = s.length := by rw [h]
  have hrevlen : (s.dropWhile isPySpace).reverse.length = (s.dropWhile isPySpace).length := by
    simp
  have hd : s.dropWhile isPySpace = s :=
    dropWhile_eq_self_of_len isPySpace s (by omega)
  refine ⟨hd, ?_⟩
  have h2 : (s.reverse.dropWhile isPySpace).reverse = s := by
    have h3 := h
    unfold pyStrip at h3
    rw [hd] at h3
    exact h3
  have h4 := congrArg List.reverse h2
  simpa using h4

/-- A cons fixed by `dropWhile` has a head the predicate rejects. -/
theorem head_not_space_of_dropWhile_eq (p : Char → Bool) (c : Char) (l : List Char)
    (h : (c :: l).dropWhile p = c :: l) : p c = false := by
  cases hc : p c with
  | false => rfl
  | true =>
    exfalso
    have h2 : (c :: l).dropWhile p = l.dropWhile p :=
      dropWhile_cons_of_pos p c l hc
    have h3 := length_dropWhile_le' p l
    rw [h2] at h
    have h4 := congrArg List.length h
    simp at h4
    omega

/-- Unfolding: splitting at a leading newline. -/
theorem splitNl_cons_nl (rest : List Char) :
    splitNl ('\n' :: rest) = [] :: splitNl rest := by
  simp [splitNl]

/-- Unfolding: splitting with a non-newline head prepends it to the first
part. -/
theorem splitNl_cons_ne (c : Char) (rest : List Char) (hc : ¬ c = '\n') :
    splitNl (c :: rest) =
      match splitNl rest with
      | [] => [[c]]
      | p :: ps => (c :: p) :: ps := by
  simp [splitNl, hc]

/-- Splitting is never empty. -/
theorem splitNl_ne_nil : ∀ s : List Char, splitNl s ≠ [] := by
  intro s
  induction s with
  | nil => simp [splitNl]
  | cons c rest ih =>
    by_cases h : c = '\n'
    · simp [splitNl, h]
    · simp only [splitNl, if_neg h]
      cases hsp : splitNl rest with
      | nil => simp
      | cons p ps => simp

/-- Splitting text that starts with a newline-free chunk followed by a
newline peels off exactly that chunk. -/
theorem splitNl_append_newline : ∀ (id ys : List Char), '\n' ∉ id →
    splitNl (id ++ '\n' :: ys) = id :: splitNl ys := by
  intro id
  induction id with
  | nil =>
    intro ys _
    simp [splitNl]
  | cons c rest ih =>
    intro ys hnl
    have hc : ¬ (c = '\n') := fun hc => hnl (by rw [hc]; exact List.mem_cons_self _ _)
    have hrest : '\n' ∉ rest := fun hmem => hnl (List.mem_cons_of_mem c hmem)
    rw [List.cons_append, splitNl_cons_ne c _ hc, ih ys hrest]

/-- Splitting text containing a newline yields the split of the part after
that newline, behind a non-empty front. -/
theorem splitNl_prefix_newline : ∀ (xs ys : List Char),
    ∃ front : List (List Char),
      front ≠ [] ∧ splitNl (xs ++ '\n' :: ys) = front ++ splitNl ys := by
  intro xs
  induction xs with
  | nil =>
    intro ys
    exact ⟨[[]], by simp, by simp [splitNl]⟩
  | cons c rest ih =>
    intro ys
    obtain ⟨front, hf, hsp⟩ := ih ys
    by_cases hc : c = '\n'
    · refine ⟨[] :: front, by simp, ?_⟩
      subst hc
      rw [List.cons_append, splitNl_cons_nl, hsp, List.cons_append]
    · cases front with
      | nil => exact absurd rfl hf
      | cons q qs =>
        refine ⟨(c :: q) :: qs, by simp, ?_⟩
        rw [List.cons_append, splitNl_cons_ne c _ hc, hsp, List.cons_append]
        rfl

/-- Line assembly on a cons with a non-empty tail re-attaches the newline. -/
theorem pyFileLines_cons_of_ne_nil (p : List Char) (rest : List (List Char))
    (h : rest ≠ []) :
    pyFileLines (p :: rest) = (p ++ ['\n']) :: pyFileLines rest := by
  cases rest with
  | nil => exact absurd rfl h
  | cons q rest2 => rfl

/-- The second-to-last split part, followed by an empty last part, always
appears among the assembled lines with its newline re-attached. -/
theorem mem_pyFileLines_append (id : List Char) :
    ∀ front : List (List Char), (id ++ ['\n']) ∈ pyFileLines (front ++ [id, []]) := by
  intro front
  induction front with
  | nil =>
    rw [List.nil_append, pyFileLines_cons_of_ne_nil id [[]] (by simp)]
    exact List.mem_cons_self _ _
  | cons p front ih =>
    rw [List.cons_append, pyFileLines_cons_of_ne_nil p (front ++ [id, []]) (by simp)]
    exact List.mem_cons_of_mem _ ih

/-- Stripping a newline-terminated line whose body is strip-fixed recovers
the body. -/
theorem pyStrip_append_newline (id : List Char) (h1 : id.dropWhile isPySpace = id)
    (h2 : id.reverse.dropWhile isPySpace = id.reverse) :
    pyStrip (id ++ ['\n']) = id := by
  cases id with
  | nil => decide
  | cons c rest =>
    have hc : isPySpace c = false := head_not_space_of_dropWhile_eq isPySpace c rest h1
    unfold pyStrip
    have hstep1 : ((c :: rest) ++ ['\n']).dropWhile isPySpace = (c :: rest) ++ ['\n'] := by
      rw [List.cons_append, dropWhile_cons_of_neg isPySpace c _ hc]
    rw [hstep1]
    have hrev : ((c :: rest) ++ ['\n']).reverse = '\n' :: (c :: rest).reverse := by
      simp
    rw [hrev]
    have hstep2 : ('\n' :: (c :: rest).reverse).dropWhile isPySpace =
        (c :: rest).reverse.dropWhile isPySpace :=
      dropWhile_cons_of_pos isPySpace '\n' _ (by decide)
    rw [hstep2, h2]
    simp

/-- Translation leaves a cons whose head is not a carriage return alone. -/
theorem univNl_cons_ne_cr (c : Char) (rest : List Char) (hc : ¬ c = '\r') :
    univNl (c :: rest) = c :: univNl rest := by
  cases rest with
  | nil => simp [univNl, hc]
  | cons c2 rest2 => simp [univNl, hc]

/-- Translation of a carriage return followed by more text. -/
theorem univNl_cr_cons (c2 : Char) (rest : List Char) :
    univNl ('\r' :: c2 :: rest) =
      if c2 = '\n' then '\n' :: univNl rest else '\n' :: univNl (c2 :: rest) := by
  simp [univNl]

/-- A carriage-return/newline pair translates to one newline. -/
theorem univNl_cr_nl (rest : List Char) :
    univNl ('\r' :: '\n' :: rest) = '\n' :: univNl rest := by
  rw [univNl_cr_cons '\n' rest, if_pos rfl]

/-- A lone carriage return (not followed by a newline) translates to a
newline. -/
theorem univNl_cr_other (c2 : Char) (rest : List Char) (hc2 : ¬ c2 = '\n') :
    univNl ('\r' :: c2 :: rest) = '\n' :: univNl (c2 :: rest) := by
  rw [univNl_cr_cons c2 rest, if_neg hc2]

/-- Text without carriage returns is untouched by the translation. -/
theorem univNl_eq_self : ∀ xs : List Char, '\r' ∉ xs → univNl xs = xs := by
  intro xs
  induction xs with
  | nil => intro _; rfl
  | cons c rest ih =>
    intro h
    have hc : ¬ (c = '\r') := fun hc => h (by rw [hc]; exact List.mem_cons_self _ _)
    have hrest : '\r' ∉ rest := fun hm => h (List.mem_cons_of_mem c hm)
    rw [univNl_cons_ne_cr c rest hc, ih hrest]

/-- Translating text that continues after a newline boundary yields some
front, then that newline, then the translation of the remainder (a
carriage return just before the boundary merges with it, still leaving a
newline there). -/
theorem univNl_append_newline_bound : ∀ (n : Nat) (c0 ys : List Char), c0.length ≤ n →
    ∃ front : List Char, univNl (c0 ++ '\n' :: ys) = front ++ '\n' :: univNl ys := by
  intro n
  induction n with
  | zero =>
    intro c0 ys hle
    have h0 : c0 = [] := List.length_eq_zero.mp (by omega)
    subst h0
    exact ⟨[], by rw [List.nil_append, List.nil_append, univNl_cons_ne_cr '\n' ys (by decide)]⟩
  | succ n ih =>
    intro c0 ys hle
    cases c0 with
    | nil =>
      exact ⟨[], by rw [List.nil_append, List.nil_append, univNl_cons_ne_cr '\n' ys (by decide)]⟩
    | cons c rest =>
      by_cases hc : c = '\r'
      · subst hc
        cases rest with
        | nil =>
          refine ⟨[], ?_⟩
          rw [List.cons_append, List.nil_append, univNl_cr_nl ys, List.nil_append]
        | cons c2 rest2 =>
          by_cases hc2 : c2 = '\n'
          · subst hc2
            obtain ⟨front, hf⟩ :=
              ih rest2 ys (by simp only [List.length_cons] at hle; omega)
            refine ⟨'\n' :: front, ?_⟩
            rw [List.cons_append, List.cons_append, univNl_cr_nl, hf, List.cons_append]
          · obtain ⟨front, hf⟩ :=
              ih (c2 :: rest2) ys (by simp only [List.length_cons] at hle ⊢; omega)
            refine ⟨'\n' :: front, ?_⟩
            rw [List.cons_append, List.cons_append, univNl_cr_other c2 _ hc2,
              ← List.cons_append c2 rest2 ('\n' :: ys), hf, List.cons_append]
      · obtain ⟨front, hf⟩ := ih rest ys (by simp only [List.length_cons] at hle; omega)
        refine ⟨c :: front, ?_⟩
        rw [List.cons_append, univNl_cons_ne_cr c _ hc, hf, List.cons_append]

/-- Boundary form of the translation lemma, without the explicit bound. -/
theorem univNl_append_newline (c0 ys : List Char) :
    ∃ front : List Char, univNl (c0 ++ '\n' :: ys) = front ++ '\n' :: univNl ys :=
  univNl_append_newline_bound c0.length c0 ys (le_refl _)

/-- C4 counterexample: for the identifier `"a\rb"`, the append-then-hydrate
round trip loses membership — `markCompleteLog` writes `"a\rb\n"`, Python's
text-mode reading treats the carriage return as a line break, and hydration
yields the entries `"a"` and `"b"`, so the identifier itself is not
reported complete. -/
theorem markComplete_roundtrip_cex :
    ['a', '\r', 'b'] ∉ load_completed_meeting_ids (markCompleteLog [] ['a', '\r', 'b']) := by
  decide

/-- C4 (amended): for every identifier that contains no line-break
character (`'\n'` or `'\r'`) and is fixed by Python's `strip()` (over the
full whitespace set), and every prior log text that is empty or
newline-terminated (as every text produced by the append itself is),
hydrating the ledger from the log after the append reports the identifier
as complete. -/
theorem markComplete_roundtrip (content meeting_id : List Char)
    (hnl : '\n' ∉ meeting_id) (hcr : '\r' ∉ meeting_id)
    (hstrip : pyStrip meeting_id = meeting_id)
    (hcontent : content = [] ∨ ∃ c0 : List Char, content = c0 ++ ['\n']) :
    meeting_id ∈ load_completed_meeting_ids (markCompleteLog content meeting_id) := by
  obtain ⟨h1, h2⟩ := pyStrip_eq_self_facts meeting_id hstrip
  have hline : pyStrip (meeting_id ++ ['\n']) = meeting_id :=
    pyStrip_append_newline meeting_id h1 h2
  have hid_nr : '\r' ∉ meeting_id ++ ['\n'] := by
    intro hm
    rcases List.mem_append.mp hm with hm1 | hm2
    · exact hcr hm1
    · simp at hm2
  have huniv_id : univNl (meeting_id ++ ['\n']) = meeting_id ++ ['\n'] :=
    univNl_eq_self _ hid_nr
  have hsuffix : splitNl (meeting_id ++ ['\n']) = [meeting_id, []] := by
    have h3 := splitNl_append_newline meeting_id [] hnl
    simpa [splitNl] using h3
  have hmem : (meeting_id ++ ['\n']) ∈ pyLines (markCompleteLog content meeting_id) := by
    rcases hcontent with rfl | ⟨c0, rfl⟩
    · unfold markCompleteLog pyLines
      rw [List.nil_append, huniv_id, hsuffix]
      exact List.mem_cons_self _ _
    · unfold markCompleteLog pyLines
      have heq : c0 ++ ['\n'] ++ meeting_id ++ ['\n'] =
          c0 ++ '\n' :: (meeting_id ++ ['\n']) := by
        simp
      rw [heq]
      obtain ⟨frontU, hU⟩ := univNl_append_newline c0 (meeting_id ++ ['\n'])
      rw [hU, huniv_id]
      obtain ⟨front, hf, hsp⟩ := splitNl_prefix_newline frontU (meeting_id ++ ['\n'])
      rw [hsp, hsuffix]
      exact mem_pyFileLines_append meeting_id front
  unfold load_completed_meeting_ids
  have hmm := List.mem_map_of_mem pyStrip hmem
  rw [hline] at hmm
  exact hmm

/-- Witness for the amended C4 at a concrete well-formed identifier and a
newline-terminated prior log. -/
theorem markComplete_roundtrip_witness :
    '\n' ∉ ['R', '1'] ∧ '\r' ∉ ['R', '1'] ∧ pyStrip ['R', '1'] = ['R', '1']
    ∧ (['a', '\n'] = ([] : List Char) ∨ ∃ c0 : List Char, ['a', '\n'] = c0 ++ ['\n'])
    ∧ ['R', '1'] ∈ load_completed_meeting_ids (markCompleteLog ['a', '\n'] ['R', '1']) :=
  ⟨by decide, by decide, by decide, Or.inr ⟨['a'], rfl⟩,
    markComplete_roundtrip ['a', '\n'] ['R', '1'] (by decide) (by decide) (by decide)
      (Or.inr ⟨['a'], rfl⟩)⟩

end ZoomRec
